import Mathlib

/-!
Verification of the bit-packed array and partition-based snake engine.

The development shallowly embeds `bitpacking.py` (`BitPackingArray`) and
`main.py` (`GridHelper`, `Game`).  Byte buffers are lists of naturals
(each byte kept below 256 by the Python `bytearray` type), machine
integers are `Nat`/`Int`, and the engine's random draws are passed in as
explicit parameters.
-/

/-- One byte of the backing buffer; out-of-range reads default to 0
(in-bounds access is established separately where it matters). -/
def byteAt (bs : List Nat) (i : Nat) : Nat := bs.getD i 0

/-- The middle/last-byte accumulation loop of `BitPackingArray.get`:
while at least 8 bits remain, consume a whole byte shifted into place;
a final partial byte is masked to the remaining width. -/
def getLoop (bs : List Nat) (wb bitsLeft curPos value : Nat) : Nat :=
  if 8 ≤ bitsLeft then
    getLoop bs (wb + 1) (bitsLeft - 8) (curPos + 8) (value + byteAt bs wb * 2 ^ curPos)
  else if 0 < bitsLeft then
    value + byteAt bs wb % 2 ^ bitsLeft * 2 ^ curPos
  else value
termination_by bitsLeft
decreasing_by omega

/-- `BitPackingArray.get` given the first byte index `wb` and the bit
offset `bsp` inside it: read the first byte via shift and mask, then the
remaining bits via `getLoop`. -/
def bpGet (bs : List Nat) (bitsPerIndex wb bsp : Nat) : Nat :=
  let cur := min (8 - bsp) bitsPerIndex
  getLoop bs (wb + 1) (bitsPerIndex - cur) cur (byteAt bs wb / 2 ^ bsp % 2 ^ cur)

/-- The middle/last-byte write loop of `BitPackingArray.set`: full bytes
are overwritten with the next 8 bits of the value; the final partial
byte keeps its high bits and receives the remaining value bits. -/
def setLoop (bs : List Nat) (wb bitsLeft v : Nat) : List Nat :=
  if 8 ≤ bitsLeft then
    setLoop (bs.set wb (v % 256)) (wb + 1) (bitsLeft - 8) (v / 256)
  else if 0 < bitsLeft then
    bs.set wb (byteAt bs wb / 2 ^ bitsLeft * 2 ^ bitsLeft + v)
  else bs
termination_by bitsLeft
decreasing_by omega

/-- `BitPackingArray.set` at first byte `wb`, bit offset `bsp`: the first
byte keeps its `bsp` low bits and its bits above `bsp + k`, receives the
low `k` bits of the value in between, and the rest goes to `setLoop`. -/
def bpSet (bs : List Nat) (bitsPerIndex wb bsp v : Nat) : List Nat :=
  let k := min (8 - bsp) bitsPerIndex
  let b := byteAt bs wb
  let fb := (b / 2 ^ (bsp + k) * 2 ^ k + v % 2 ^ k) * 2 ^ bsp + b % 2 ^ bsp
  setLoop (bs.set wb fb) (wb + 1) (bitsPerIndex - k) (v / 2 ^ k)

/-- Mixed-radix folding of the remaining coordinates, as in
`BitPackingArray.get_actual_position`: `acc = acc * dims[i] + pos[i]`. -/
def foldAux : List Nat → List Nat → Nat → Nat
  | d :: ds, p :: ps, acc => foldAux ds ps (acc * d + p)
  | _, _, acc => acc

/-- Linear index of a coordinate (`which_bit` before scaling). -/
def foldCoord : List Nat → List Nat → Nat
  | _ :: ds, p :: ps => foldAux ds ps p
  | _, _ => 0

/-- Boolean in-range check of a (already normalized) coordinate against
the dimension list, requiring equal lengths. -/
def coordOK : List Nat → List Nat → Bool
  | [], [] => true
  | p :: ps, d :: ds => decide (p < d) && coordOK ps ds
  | _, _ => false

/-- The bit-packed array: dimensions, value width, backing bytes and a
start-bit offset (nonzero only on sub-views). -/
structure BitPackingArray where
  dimensions : List Nat
  bits_per_index : Nat
  byte_array : List Nat
  start_bit_offset : Nat

/-- First bit of the record addressed by `coord`:
`fold(coord) * bits_per_index + start_bit_offset`. -/
def BitPackingArray.bitPosition (a : BitPackingArray) (coord : List Nat) : Nat :=
  foldCoord a.dimensions coord * a.bits_per_index + a.start_bit_offset

/-- `BitPackingArray.get` at an in-range coordinate. -/
def BitPackingArray.get (a : BitPackingArray) (coord : List Nat) : Nat :=
  bpGet a.byte_array a.bits_per_index (a.bitPosition coord / 8) (a.bitPosition coord % 8)

/-- `BitPackingArray.set` at an in-range coordinate. -/
def BitPackingArray.set (a : BitPackingArray) (coord : List Nat) (v : Nat) : BitPackingArray :=
  { a with byte_array :=
      bpSet a.byte_array a.bits_per_index (a.bitPosition coord / 8) (a.bitPosition coord % 8) v }

/-- The two exception kinds `__setitem__` can raise. -/
inductive BPErr where
  | indexError : BPErr
  | valueError : BPErr
deriving DecidableEq

/-- `BitPackingArray.__setitem__`: dimensionality check, then the
negative-index-normalized bounds check, then the value-range check, and
only then the (unchecked) `set`.  The returned array is the post-call
state: unchanged whenever an error is signalled, since every check
precedes the write. -/
def BitPackingArray.setitem (a : BitPackingArray) (idx new_value : Int) :
    BitPackingArray × Option BPErr :=
  if 1 < a.dimensions.length then (a, some BPErr.valueError)
  else
    let len0 : Int := (a.dimensions.headD 0 : Nat)
    let actual := if 0 ≤ idx then idx else len0 + idx
    if ¬(0 ≤ actual ∧ actual < len0) then (a, some BPErr.indexError)
    else if ¬(0 ≤ new_value ∧ new_value < 2 ^ a.bits_per_index) then (a, some BPErr.valueError)
    else (a.set [actual.toNat] new_value.toNat, none)

/-- Byte indices dereferenced by the `getLoop` part of a read. -/
def getLoopTouched (wb bitsLeft : Nat) : List Nat :=
  if 8 ≤ bitsLeft then wb :: getLoopTouched (wb + 1) (bitsLeft - 8)
  else if 0 < bitsLeft then [wb]
  else []
termination_by bitsLeft
decreasing_by omega

/-- All byte indices dereferenced by `BitPackingArray.get coord`. -/
def BitPackingArray.getTouchedBytes (a : BitPackingArray) (coord : List Nat) : List Nat :=
  let wb := a.bitPosition coord / 8
  let bsp := a.bitPosition coord % 8
  let cur := min (8 - bsp) a.bits_per_index
  wb :: getLoopTouched (wb + 1) (a.bits_per_index - cur)

/-- `GridHelper`: a bit-field projection of one packed record; the
shared backing array is passed to each operation. -/
structure GridHelper where
  width : Nat
  height : Nat
  bits_per_index : Nat
  start_bit : Nat
  bits_to_read : Nat
  is_game_grid : Bool

/-- `GridHelper.__getitem__` at a linear position: extract
`bits_to_read` bits at `start_bit` of the addressed record; non-game
grids decode 0 as the position itself and otherwise subtract 1. -/
def GridHelper.getitem (gh : GridHelper) (arr : BitPackingArray) (pos : Nat) : Nat :=
  let value := arr.get [pos] / 2 ^ gh.start_bit % 2 ^ gh.bits_to_read
  if gh.is_game_grid then value
  else if value = 0 then pos else value - 1

/-- `GridHelper.__getitem__` with a 2-D coordinate, resolved to
`row * width + col` first. -/
def GridHelper.getitem2 (gh : GridHelper) (arr : BitPackingArray) (p : Nat × Nat) : Nat :=
  gh.getitem arr (p.1 * gh.width + p.2)

/-- `GridHelper.__setitem__` at a linear position: non-game grids add 1
to the stored value; the encoded value must fit in `bits_to_read` bits
(else a value-range error, modelled as `none`); the record is rewritten
preserving the bits below `start_bit` and above
`start_bit + bits_to_read`. -/
def GridHelper.setitem (gh : GridHelper) (arr : BitPackingArray) (pos new_value : Nat) :
    Option BitPackingArray :=
  let nv := new_value + (if gh.is_game_grid then 0 else 1)
  if nv ≤ 2 ^ gh.bits_to_read - 1 then
    let number_of_end_bits := gh.bits_per_index - gh.start_bit - gh.bits_to_read
    let bits_at_end := arr.get [pos] / 2 ^ (gh.start_bit + gh.bits_to_read)
        % 2 ^ number_of_end_bits * 2 ^ (gh.start_bit + gh.bits_to_read)
    let bits_at_start := arr.get [pos] % 2 ^ gh.start_bit
    some (arr.set [pos] (bits_at_end + nv * 2 ^ gh.start_bit + bits_at_start))
  else none

/-- Grid-space tags from `main.py`. -/
def EMPTY : Int := 0
/-- Snake segment moving up. -/
def SNAKE_UP : Int := 1
/-- Snake segment moving right. -/
def SNAKE_RIGHT : Int := 2
/-- Snake segment moving down. -/
def SNAKE_DOWN : Int := 3
/-- Snake segment moving left. -/
def SNAKE_LEFT : Int := 4
/-- Base tag of bug cells; bug cells carry `BUG + cycle`. -/
def BUG : Int := 5

/-- Pointwise function update used to model one grid write. -/
def upd (f : Int → Int) (x v : Int) : Int → Int :=
  fun y => if y = x then v else f y

/-- The `Game` state, with the three grids viewed at the value level:
each grid maps a linear cell index (or partition position) to the value
the corresponding `GridHelper` read would return. -/
structure Game where
  width : Int
  height : Int
  snake_speed : Int
  snake_spaces : Int
  available_bug_spaces : Int
  min_bugs : Int
  max_bugs : Int
  bug_spaces : Int
  future_bug_spaces : Int
  bug_spawn_cycle : Int
  bug_hint_idx : Int
  tail : Int × Int
  head : Int × Int
  game_grid : Int → Int
  key_grid : Int → Int
  partitioned_grid : Int → Int

/-- Total number of grid cells, `width * height`. -/
def Game.total_grid_spaces (g : Game) : Int := g.width * g.height

/-- Linearization of a 2-D coordinate, `pos[0] * width + pos[1]`, as
performed by every `GridHelper` access. -/
def linIdx (width : Int) (c : Int × Int) : Int := c.1 * width + c.2

/-- `Game.get_next_coord`: move one cell along a direction tag
(`SNAKE_UP`/`RIGHT`/`DOWN`/`LEFT`); only called with those four tags. -/
def Game.get_next_coord (c : Int × Int) (direction : Int) : Int × Int :=
  if direction = SNAKE_UP then (c.1 - 1, c.2)
  else if direction = SNAKE_RIGHT then (c.1, c.2 + 1)
  else if direction = SNAKE_DOWN then (c.1 + 1, c.2)
  else (c.1, c.2 - 1)

/-- `Game.swap`: exchange the partition values at positions `idx_1` and
`idx_2`, then point the key grid of both exchanged values at their new
positions; returns the pair of exchanged values. -/
def Game.swap (g : Game) (idx_1 idx_2 : Int) : Game × Int × Int :=
  let swap_value_1 := g.partitioned_grid idx_1
  let swap_value_2 := g.partitioned_grid idx_2
  ({ g with
      partitioned_grid := upd (upd g.partitioned_grid idx_1 swap_value_2) idx_2 swap_value_1,
      key_grid := upd (upd g.key_grid swap_value_2 idx_1) swap_value_1 idx_2 },
   swap_value_1, swap_value_2)

/-- `Game.change_bug_hint`: step `bug_hint_idx` by plus/minus one and wrap it
back into the bug/future-bug zone
`[available + future, available + future + bug_spaces)`. -/
def Game.change_bug_hint (g : Game) (backwards : Bool) : Game :=
  let direction : Int := if backwards then -1 else 1
  let idx := g.bug_hint_idx + direction
  let idx :=
    if idx < g.available_bug_spaces + g.future_bug_spaces then
      g.available_bug_spaces + g.future_bug_spaces + g.bug_spaces - 1
    else if g.available_bug_spaces + g.future_bug_spaces + g.bug_spaces ≤ idx then
      g.available_bug_spaces + g.future_bug_spaces
    else idx
  { g with bug_hint_idx := idx }

/-- `Game.move_into_empty`: swap the tail's and entered cell's partition
positions, advance the tail along its stored direction, clear the old
tail cell and write the travel direction at the old and new head. -/
def Game.move_into_empty (g0 : Game) (next_head_coord : Int × Int) (direction : Int) : Game :=
  let partitioned_tail_idx := g0.key_grid (linIdx g0.width g0.tail)
  let partitioned_head_idx := g0.key_grid (linIdx g0.width next_head_coord)
  let g1 := (g0.swap partitioned_tail_idx partitioned_head_idx).1
  let old_tail_coord := g1.tail
  let g2 : Game := { g1 with tail := Game.get_next_coord g1.tail (g1.game_grid (linIdx g1.width g1.tail)) }
  let g3 : Game := { g2 with game_grid := upd g2.game_grid (linIdx g2.width old_tail_coord) EMPTY }
  let g4 : Game := { g3 with game_grid := upd g3.game_grid (linIdx g3.width g3.head) direction }
  let g5 : Game := { g4 with head := next_head_coord }
  { g5 with game_grid := upd g5.game_grid (linIdx g5.width next_head_coord) direction }

/-- `Game.move_into_future_bug` with the random draw
`r = randrange(available_bug_spaces + 1)` passed explicitly: swap tail
and entered cell; if the draw hits the vacated tail slot, the old tail
cell itself becomes the future bug, otherwise the drawn free-zone cell
is swapped into the future-bug zone and tagged. -/
def Game.move_into_future_bug (g0 : Game) (next_head_coord : Int × Int)
    (direction r : Int) : Game :=
  let partitioned_tail_idx := g0.key_grid (linIdx g0.width g0.tail)
  let partitioned_head_idx := g0.key_grid (linIdx g0.width next_head_coord)
  let g1 := (g0.swap partitioned_tail_idx partitioned_head_idx).1
  if r = g1.available_bug_spaces then
    let old_tail_coord := g1.tail
    let g2 : Game := { g1 with tail := Game.get_next_coord g1.tail (g1.game_grid (linIdx g1.width g1.tail)) }
    let g3 : Game := { g2 with game_grid :=
        (upd g2.game_grid (linIdx g2.width old_tail_coord) (BUG + g2.bug_spawn_cycle)) }
    let g4 : Game := { g3 with game_grid := upd g3.game_grid (linIdx g3.width g3.head) direction }
    let g5 : Game := { g4 with head := next_head_coord }
    { g5 with game_grid := upd g5.game_grid (linIdx g5.width next_head_coord) direction }
  else
    let s := g1.swap r partitioned_head_idx
    let g2 := s.1
    let bug_location := s.2.1
    let old_tail_coord := g2.tail
    let g3 : Game := { g2 with tail := Game.get_next_coord g2.tail (g2.game_grid (linIdx g2.width g2.tail)) }
    let g4 : Game := { g3 with game_grid := upd g3.game_grid (linIdx g3.width old_tail_coord) EMPTY }
    let g5 : Game := { g4 with game_grid := upd g4.game_grid (linIdx g4.width g4.head) direction }
    let g6 : Game := { g5 with head := next_head_coord }
    let g7 : Game := { g6 with game_grid := upd g6.game_grid (linIdx g6.width next_head_coord) direction }
    { g7 with game_grid := upd g7.game_grid bug_location (BUG + g7.bug_spawn_cycle) }

/-- `Game.move_into_bug` with the random draw
`r = randrange(available_bug_spaces)` passed explicitly (used only when
`available_bug_spaces > 0`): swap the entered cell's partition position
with the last bug-zone slot; if free cells remain, swap a random free
cell next to the bug zone and tag it; decrement `available_bug_spaces`
(floored at 0); grow the snake, shrink the bug zone, fold
`future_bug_spaces` into `bug_spaces` when `min_bugs - 1` is reached,
and redirect `bug_hint_idx` if it pointed at a swapped slot. -/
def Game.move_into_bug (g0 : Game) (next_head_coord : Int × Int)
    (direction r : Int) : Game :=
  let touching_snake_idx := g0.available_bug_spaces + g0.bug_spaces + g0.future_bug_spaces - 1
  let partitioned_head_idx := g0.key_grid (linIdx g0.width next_head_coord)
  let g1 := (g0.swap partitioned_head_idx touching_snake_idx).1
  let g2 : Game :=
    if 0 < g1.available_bug_spaces then
      let touching_bug_idx := g1.available_bug_spaces - 1
      let s := g1.swap r touching_bug_idx
      let bug_location := s.2.1
      let gA : Game := { s.1 with future_bug_spaces := s.1.future_bug_spaces + 1 }
      { gA with game_grid := (upd gA.game_grid bug_location
          (if gA.max_bugs ≠ gA.min_bugs then BUG + gA.bug_spawn_cycle else BUG)) }
    else g1
  let g3 : Game := { g2 with available_bug_spaces :=
      g2.available_bug_spaces - (if 0 < g2.available_bug_spaces then 1 else 0) }
  let g4 : Game := { g3 with game_grid := upd g3.game_grid (linIdx g3.width g3.head) direction }
  let g5 : Game := { g4 with head := next_head_coord }
  let g6 : Game := { g5 with game_grid := upd g5.game_grid (linIdx g5.width next_head_coord) direction }
  let g7 : Game := { g6 with snake_spaces := g6.snake_spaces + 1 }
  let g8 : Game := { g7 with bug_spaces := g7.bug_spaces - 1 }
  let g9 :=
    if g8.bug_spaces = g8.min_bugs - 1 then
      { g8 with bug_spaces := g8.bug_spaces + g8.future_bug_spaces,
                future_bug_spaces := 0,
                bug_spawn_cycle := g8.bug_spawn_cycle + 1 }
    else g8
  if g9.bug_hint_idx = partitioned_head_idx then
    { g9 with bug_hint_idx := g9.available_bug_spaces + g9.future_bug_spaces }
  else if g9.bug_hint_idx = touching_snake_idx then
    { g9 with bug_hint_idx := partitioned_head_idx }
  else g9

/-- The inverse-pair invariant assumed by the permutation claim: on the
cell range, the partition grid maps into the range, attains every value
of the range, and the key grid sends each partition value back to its
position. -/
def Game.gridInverse (g : Game) : Prop :=
  (∀ i ∈ Finset.Ico (0 : Int) g.total_grid_spaces,
      g.partitioned_grid i ∈ Finset.Ico (0 : Int) g.total_grid_spaces) ∧
  (∀ v ∈ Finset.Ico (0 : Int) g.total_grid_spaces,
      ∃ i ∈ Finset.Ico (0 : Int) g.total_grid_spaces, g.partitioned_grid i = v) ∧
  (∀ i ∈ Finset.Ico (0 : Int) g.total_grid_spaces,
      g.key_grid (g.partitioned_grid i) = i)

/-- Both grids are bijections of the cell range: no duplicate values and
full coverage, for the partition grid and for the key grid. -/
def Game.gridPermutations (g : Game) : Prop :=
  (∀ i ∈ Finset.Ico (0 : Int) g.total_grid_spaces,
      ∀ j ∈ Finset.Ico (0 : Int) g.total_grid_spaces,
        g.partitioned_grid i = g.partitioned_grid j → i = j) ∧
  (∀ v ∈ Finset.Ico (0 : Int) g.total_grid_spaces,
      ∃ i ∈ Finset.Ico (0 : Int) g.total_grid_spaces, g.partitioned_grid i = v) ∧
  (∀ i ∈ Finset.Ico (0 : Int) g.total_grid_spaces,
      ∀ j ∈ Finset.Ico (0 : Int) g.total_grid_spaces,
        g.key_grid i = g.key_grid j → i = j) ∧
  (∀ v ∈ Finset.Ico (0 : Int) g.total_grid_spaces,
      ∃ i ∈ Finset.Ico (0 : Int) g.total_grid_spaces, g.key_grid i = v)

/-- Claim C9: entering a future-bug cell never changes any of the
counters: `move_into_future_bug` (for every state and every random
draw) leaves `snake_spaces`, `available_bug_spaces`,
`future_bug_spaces`, `bug_spaces`, `min_bugs`, `max_bugs`,
`bug_spawn_cycle` — and also `width`, `height`, `snake_speed` and
`bug_hint_idx` — unchanged; only head/tail, game-grid tags and the
key/partition grids can change. -/
theorem move_into_future_bug_counters_frame (g : Game) (nh : Int × Int) (dir r : Int) :
    (g.move_into_future_bug nh dir r).snake_spaces = g.snake_spaces ∧
    (g.move_into_future_bug nh dir r).available_bug_spaces = g.available_bug_spaces ∧
    (g.move_into_future_bug nh dir r).future_bug_spaces = g.future_bug_spaces ∧
    (g.move_into_future_bug nh dir r).bug_spaces = g.bug_spaces ∧
    (g.move_into_future_bug nh dir r).min_bugs = g.min_bugs ∧
    (g.move_into_future_bug nh dir r).max_bugs = g.max_bugs ∧
    (g.move_into_future_bug nh dir r).bug_spawn_cycle = g.bug_spawn_cycle ∧
    (g.move_into_future_bug nh dir r).width = g.width ∧
    (g.move_into_future_bug nh dir r).height = g.height ∧
    (g.move_into_future_bug nh dir r).snake_speed = g.snake_speed ∧
    (g.move_into_future_bug nh dir r).bug_hint_idx = g.bug_hint_idx := by
  unfold Game.move_into_future_bug Game.swap
  dsimp only
  refine ⟨?_, ?_, ?_, ?_, ?_, ?_, ?_, ?_, ?_, ?_, ?_⟩ <;> (split <;> rfl)

/-- Claim C4: `move_into_bug` folds exactly when the decrement brings
`bug_spaces` to `min_bugs - 1`; in that case `bug_spaces` receives the
entire pre-fold `future_bug_spaces` (the incoming count plus the bug
placed in this call when free space remained), `future_bug_spaces`
becomes 0 and `bug_spawn_cycle` grows by exactly 1; otherwise none of
that happens. -/
theorem move_into_bug_fold_characterization (g : Game) (nh : Int × Int) (dir r : Int) :
    (g.move_into_bug nh dir r).bug_spaces =
      (if g.bug_spaces - 1 = g.min_bugs - 1
       then g.min_bugs - 1 +
         (g.future_bug_spaces + (if 0 < g.available_bug_spaces then 1 else 0))
       else g.bug_spaces - 1) ∧
    (g.move_into_bug nh dir r).future_bug_spaces =
      (if g.bug_spaces - 1 = g.min_bugs - 1 then 0
       else g.future_bug_spaces + (if 0 < g.available_bug_spaces then 1 else 0)) ∧
    (g.move_into_bug nh dir r).bug_spawn_cycle =
      (if g.bug_spaces - 1 = g.min_bugs - 1 then g.bug_spawn_cycle + 1
       else g.bug_spawn_cycle) := by
  unfold Game.move_into_bug Game.swap
  dsimp only
  refine ⟨?_, ?_, ?_⟩ <;> split_ifs <;> (try dsimp only at *) <;> omega

/-- Claim C5: with at least one bug and `bug_hint_idx` inside the bug
zone `[available + future, available + future + bug_spaces)`,
`change_bug_hint` moves the cursor by one position in the requested
direction, wrapping circularly at both ends, keeps it inside the zone,
and changes no other field of the game state. -/
theorem change_bug_hint_cycles (g : Game) (backwards : Bool)
    (hB : 1 ≤ g.bug_spaces)
    (hlo : g.available_bug_spaces + g.future_bug_spaces ≤ g.bug_hint_idx)
    (hhi : g.bug_hint_idx <
      g.available_bug_spaces + g.future_bug_spaces + g.bug_spaces) :
    ((g.change_bug_hint backwards).bug_hint_idx =
      if backwards then
        (if g.bug_hint_idx = g.available_bug_spaces + g.future_bug_spaces
         then g.available_bug_spaces + g.future_bug_spaces + g.bug_spaces - 1
         else g.bug_hint_idx - 1)
      else
        (if g.bug_hint_idx =
            g.available_bug_spaces + g.future_bug_spaces + g.bug_spaces - 1
         then g.available_bug_spaces + g.future_bug_spaces
         else g.bug_hint_idx + 1)) ∧
    (g.available_bug_spaces + g.future_bug_spaces ≤
        (g.change_bug_hint backwards).bug_hint_idx ∧
      (g.change_bug_hint backwards).bug_hint_idx <
        g.available_bug_spaces + g.future_bug_spaces + g.bug_spaces) ∧
    (g.change_bug_hint backwards).width = g.width ∧
    (g.change_bug_hint backwards).height = g.height ∧
    (g.change_bug_hint backwards).snake_speed = g.snake_speed ∧
    (g.change_bug_hint backwards).snake_spaces = g.snake_spaces ∧
    (g.change_bug_hint backwards).available_bug_spaces = g.available_bug_spaces ∧
    (g.change_bug_hint backwards).min_bugs = g.min_bugs ∧
    (g.change_bug_hint backwards).max_bugs = g.max_bugs ∧
    (g.change_bug_hint backwards).bug_spaces = g.bug_spaces ∧
    (g.change_bug_hint backwards).future_bug_spaces = g.future_bug_spaces ∧
    (g.change_bug_hint backwards).bug_spawn_cycle = g.bug_spawn_cycle ∧
    (g.change_bug_hint backwards).tail = g.tail ∧
    (g.change_bug_hint backwards).head = g.head ∧
    (g.change_bug_hint backwards).game_grid = g.game_grid ∧
    (g.change_bug_hint backwards).key_grid = g.key_grid ∧
    (g.change_bug_hint backwards).partitioned_grid = g.partitioned_grid := by
  unfold Game.change_bug_hint
  dsimp only
  cases backwards <;>
    refine ⟨?_, ⟨?_, ?_⟩, rfl, rfl, rfl, rfl, rfl, rfl, rfl, rfl, rfl, rfl,
      rfl, rfl, rfl, rfl, rfl⟩ <;>
    split_ifs <;> (try dsimp only at *) <;> omega

/-- A small consistent game state on a 3x3 board used as concrete
input: a five-segment snake from (0,0) to (2,2), one current bug at
cell 7, one future bug at cell 6, two free cells, `min_bugs = 1`,
`max_bugs = 2`, spawn cycle 2. -/
def cg : Game where
  width := 3
  height := 3
  snake_speed := 30
  snake_spaces := 5
  available_bug_spaces := 2
  min_bugs := 1
  max_bugs := 2
  bug_spaces := 1
  future_bug_spaces := 1
  bug_spawn_cycle := 2
  bug_hint_idx := 3
  tail := (0, 0)
  head := (2, 2)
  game_grid := fun c =>
    if c = 0 then 2 else if c = 1 then 2 else if c = 2 then 3
    else if c = 5 then 3 else if c = 8 then 3
    else if c = 7 then 5 else if c = 6 then 7 else 0
  key_grid := fun c =>
    if c = 3 then 0 else if c = 4 then 1 else if c = 6 then 2
    else if c = 7 then 3 else if c = 0 then 4 else if c = 1 then 5
    else if c = 2 then 6 else if c = 5 then 7 else if c = 8 then 8 else 0
  partitioned_grid := fun p =>
    if p = 0 then 3 else if p = 1 then 4 else if p = 2 then 6
    else if p = 3 then 7 else if p = 4 then 0 else if p = 5 then 1
    else if p = 6 then 2 else if p = 7 then 5 else if p = 8 then 8 else 0

/-- Witness for claim C5 at the concrete state `cg`: one bug, hint
cursor at the single bug-zone position 3. -/
theorem change_bug_hint_cycles_witness :
    ((cg.change_bug_hint false).bug_hint_idx =
      if cg.bug_hint_idx =
          cg.available_bug_spaces + cg.future_bug_spaces + cg.bug_spaces - 1
       then cg.available_bug_spaces + cg.future_bug_spaces
       else cg.bug_hint_idx + 1) ∧
    (cg.available_bug_spaces + cg.future_bug_spaces ≤
        (cg.change_bug_hint false).bug_hint_idx ∧
      (cg.change_bug_hint false).bug_hint_idx <
        cg.available_bug_spaces + cg.future_bug_spaces + cg.bug_spaces) := by
  have h := change_bug_hint_cycles cg false (by decide) (by decide) (by decide)
  exact ⟨by simpa using h.1, h.2.1⟩

/-- A state satisfying the inverse-pair invariant has both grids
bijective on the cell range: the partition grid by the inverse
property, the key grid because it is its two-sided inverse there. -/
theorem gridInverse_gridPermutations (g : Game) (h : g.gridInverse) :
    g.gridPermutations := by
  obtain ⟨hmap, hsurj, hinv⟩ := h
  have hinj : ∀ p ∈ Finset.Ico (0 : Int) g.total_grid_spaces,
      ∀ q ∈ Finset.Ico (0 : Int) g.total_grid_spaces,
        g.partitioned_grid p = g.partitioned_grid q → p = q := by
    intro p hp q hq hpq
    rw [← hinv p hp, hpq, hinv q hq]
  have hright : ∀ v ∈ Finset.Ico (0 : Int) g.total_grid_spaces,
      g.partitioned_grid (g.key_grid v) = v := by
    intro v hv
    obtain ⟨p, hp, hpv⟩ := hsurj v hv
    rw [← hpv, hinv p hp]
  have hkmap : ∀ v ∈ Finset.Ico (0 : Int) g.total_grid_spaces,
      g.key_grid v ∈ Finset.Ico (0 : Int) g.total_grid_spaces := by
    intro v hv
    obtain ⟨p, hp, hpv⟩ := hsurj v hv
    rw [← hpv, hinv p hp]; exact hp
  refine ⟨hinj, hsurj, ?_, ?_⟩
  · intro a ha b hb hab
    rw [← hright a ha, hab, hright b hb]
  · intro v hv
    exact ⟨g.partitioned_grid v, hmap v hv, hinv v hv⟩

/-- Claim C2: if the key grid is the inverse of the partition grid (a
permutation of the cell range), then `swap i j` at any two in-range
partition positions re-establishes exactly that relation, and both
grids remain bijections of the cell range (no duplicates, full
coverage). -/
theorem swap_preserves_inverse (g : Game) (i j : Int) (hg : g.gridInverse)
    (hi : i ∈ Finset.Ico (0 : Int) g.total_grid_spaces)
    (hj : j ∈ Finset.Ico (0 : Int) g.total_grid_spaces) :
    ((g.swap i j).1).gridInverse ∧ ((g.swap i j).1).gridPermutations := by
  obtain ⟨hmap, hsurj, hinv⟩ := hg
  have hinj : ∀ p ∈ Finset.Ico (0 : Int) g.total_grid_spaces,
      ∀ q ∈ Finset.Ico (0 : Int) g.total_grid_spaces,
        g.partitioned_grid p = g.partitioned_grid q → p = q := by
    intro p hp q hq hpq
    rw [← hinv p hp, hpq, hinv q hq]
  have hN : ((g.swap i j).1).total_grid_spaces = g.total_grid_spaces := rfl
  have hpart : ∀ x, ((g.swap i j).1).partitioned_grid x =
      if x = j then g.partitioned_grid i
      else if x = i then g.partitioned_grid j
      else g.partitioned_grid x := fun x => rfl
  have hkey : ∀ y, ((g.swap i j).1).key_grid y =
      if y = g.partitioned_grid i then j
      else if y = g.partitioned_grid j then i
      else g.key_grid y := fun y => rfl
  have hinv2 : ((g.swap i j).1).gridInverse := by
    refine ⟨?_, ?_, ?_⟩
    · intro p hp
      rw [hN] at hp ⊢
      rw [hpart p]
      split_ifs
      · exact hmap i hi
      · exact hmap j hj
      · exact hmap p hp
    · intro v hv
      rw [hN] at hv
      obtain ⟨q, hq, hqv⟩ := hsurj v hv
      by_cases hqi : q = i
      · refine ⟨j, by rw [hN]; exact hj, ?_⟩
        rw [hpart j, if_pos rfl, ← hqi]
        exact hqv
      · by_cases hqj : q = j
        · refine ⟨i, by rw [hN]; exact hi, ?_⟩
          have hij : i ≠ j := fun h => hqi (hqj.trans h.symm)
          rw [hpart i, if_neg hij, if_pos rfl, ← hqj]
          exact hqv
        · refine ⟨q, by rw [hN]; exact hq, ?_⟩
          rw [hpart q, if_neg hqj, if_neg hqi]
          exact hqv
    · intro p hp
      rw [hN] at hp
      rw [hpart p, hkey]
      by_cases hpj : p = j
      · rw [if_pos hpj, if_pos rfl]
        exact hpj.symm
      · rw [if_neg hpj]
        by_cases hpi : p = i
        · rw [if_pos hpi]
          by_cases hji : g.partitioned_grid j = g.partitioned_grid i
          · rw [if_pos hji]
            exact (hinj j hj i hi hji).trans hpi.symm
          · rw [if_neg hji, if_pos rfl]
            exact hpi.symm
        · rw [if_neg hpi]
          have h1 : g.partitioned_grid p ≠ g.partitioned_grid i :=
            fun h => hpi (hinj p hp i hi h)
          have h2 : g.partitioned_grid p ≠ g.partitioned_grid j :=
            fun h => hpj (hinj p hp j hj h)
          rw [if_neg h1, if_neg h2]
          exact hinv p hp
  exact ⟨hinv2, gridInverse_gridPermutations _ hinv2⟩

/-- A minimal 2-cell game state whose key and partition grids are the
identity permutation, used as concrete input. -/
def cg2 : Game where
  width := 2
  height := 1
  snake_speed := 0
  snake_spaces := 0
  available_bug_spaces := 0
  min_bugs := 0
  max_bugs := 0
  bug_spaces := 0
  future_bug_spaces := 0
  bug_spawn_cycle := 1
  bug_hint_idx := 0
  tail := (0, 0)
  head := (0, 0)
  game_grid := fun _ => 0
  key_grid := fun c => c
  partitioned_grid := fun p => p

/-- Witness for claim C2: swapping partition positions 0 and 1 of `cg2`
keeps the inverse-pair invariant and both bijections. -/
theorem swap_preserves_inverse_witness :
    ((cg2.swap 0 1).1).gridInverse ∧ ((cg2.swap 0 1).1).gridPermutations :=
  swap_preserves_inverse cg2 0 1
    ⟨fun i hi => hi, fun v hv => ⟨v, hv, rfl⟩, fun i _ => rfl⟩
    (by decide) (by decide)

/-- When free space remains and the entered cell's partition position
is inside the bug zone, `move_into_bug` writes the bug tag of the
current cycle (or the plain tag when `min_bugs = max_bugs`) onto the
cell stored at free-zone position `r` before the call. -/
theorem move_into_bug_tags_free_cell (g : Game) (nh : Int × Int) (dir r : Int)
    (hA : 0 < g.available_bug_spaces)
    (hr0 : 0 ≤ r) (hr : r < g.available_bug_spaces)
    (hB : 1 ≤ g.bug_spaces) (hF : 0 ≤ g.future_bug_spaces)
    (hphi : g.available_bug_spaces + g.future_bug_spaces ≤
      g.key_grid (linIdx g.width nh))
    (hhead : linIdx g.width g.head ≠ g.partitioned_grid r)
    (hnh : linIdx g.width nh ≠ g.partitioned_grid r) :
    (g.move_into_bug nh dir r).game_grid (g.partitioned_grid r) =
      (if g.max_bugs ≠ g.min_bugs then BUG + g.bug_spawn_cycle else BUG) := by
  have hrt : r ≠ g.available_bug_spaces + g.bug_spaces + g.future_bug_spaces - 1 := by
    omega
  have hrphi : r ≠ g.key_grid (linIdx g.width nh) := by omega
  unfold Game.move_into_bug Game.swap
  dsimp only
  simp only [if_pos hA]
  simp only [apply_ite Game.game_grid]
  try dsimp only
  try simp only [ite_self]
  simp only [upd]
  rw [if_neg hrt, if_neg hrphi]
  rw [if_neg (Ne.symm hnh), if_neg (Ne.symm hhead), if_pos rfl]

/-- Claim C3 (amended): entering a current-bug cell with
`available_bug_spaces > 0` makes `move_into_bug` increment
`snake_spaces` by exactly 1, decrement `available_bug_spaces` by
exactly 1, and write a bug tag onto a cell that belonged to the free
zone before the call; `bug_spaces` decreases by exactly 1 unless the
decrement lands on `min_bugs - 1` (that is, `bug_spaces = min_bugs` on
entry), in which case the fold immediately sets `bug_spaces` to
`min_bugs - 1` plus the pre-fold `future_bug_spaces` (the incoming
count plus the bug placed by this very call). -/
theorem move_into_bug_scenarioB (g : Game) (nh : Int × Int) (dir r : Int)
    (hA : 0 < g.available_bug_spaces)
    (hr0 : 0 ≤ r) (hr : r < g.available_bug_spaces)
    (hB : 1 ≤ g.bug_spaces) (hF : 0 ≤ g.future_bug_spaces)
    (hphi : g.available_bug_spaces + g.future_bug_spaces ≤
      g.key_grid (linIdx g.width nh))
    (hhead : linIdx g.width g.head ≠ g.partitioned_grid r)
    (hnh : linIdx g.width nh ≠ g.partitioned_grid r) :
    (g.move_into_bug nh dir r).snake_spaces = g.snake_spaces + 1 ∧
    (g.move_into_bug nh dir r).available_bug_spaces =
      g.available_bug_spaces - 1 ∧
    (g.move_into_bug nh dir r).bug_spaces =
      (if g.bug_spaces = g.min_bugs
       then g.min_bugs - 1 + (g.future_bug_spaces + 1)
       else g.bug_spaces - 1) ∧
    ∃ p, (0 ≤ p ∧ p < g.available_bug_spaces) ∧
      (g.move_into_bug nh dir r).game_grid (g.partitioned_grid p) =
        (if g.max_bugs ≠ g.min_bugs then BUG + g.bug_spawn_cycle else BUG) := by
  refine ⟨?_, ?_, ?_, ⟨r, ⟨hr0, hr⟩,
    move_into_bug_tags_free_cell g nh dir r hA hr0 hr hB hF hphi hhead hnh⟩⟩ <;>
  · unfold Game.move_into_bug Game.swap
    dsimp only
    split_ifs <;> (try dsimp only at *) <;> omega

/-- Counterexample to claim C3 as frozen: in the consistent state `cg`
the snake enters the current-bug cell (2,1) (game-grid tag 5, a
previous-cycle bug) with `available_bug_spaces = 2 > 0`, yet
`bug_spaces` does not drop by 1: the call brings it from 1 to
`min_bugs - 1 = 0` and the fold immediately raises it to 2. -/
theorem move_into_bug_scenarioB_counterexample :
    0 < cg.available_bug_spaces ∧
    (BUG ≤ cg.game_grid (linIdx cg.width (2, 1)) ∧
      cg.game_grid (linIdx cg.width (2, 1)) < BUG + cg.bug_spawn_cycle) ∧
    (cg.move_into_bug (2, 1) SNAKE_LEFT 0).bug_spaces ≠ cg.bug_spaces - 1 := by
  decide

/-- Witness for the amended claim C3 at the concrete state `cg`,
entering the bug cell (2,1) moving left with random free index 0. -/
theorem move_into_bug_scenarioB_witness :
    (cg.move_into_bug (2, 1) SNAKE_LEFT 0).snake_spaces = cg.snake_spaces + 1 ∧
    (cg.move_into_bug (2, 1) SNAKE_LEFT 0).available_bug_spaces =
      cg.available_bug_spaces - 1 ∧
    (cg.move_into_bug (2, 1) SNAKE_LEFT 0).bug_spaces =
      (if cg.bug_spaces = cg.min_bugs
       then cg.min_bugs - 1 + (cg.future_bug_spaces + 1)
       else cg.bug_spaces - 1) ∧
    ∃ p, (0 ≤ p ∧ p < cg.available_bug_spaces) ∧
      (cg.move_into_bug (2, 1) SNAKE_LEFT 0).game_grid (cg.partitioned_grid p) =
        (if cg.max_bugs ≠ cg.min_bugs then BUG + cg.bug_spawn_cycle else BUG) :=
  move_into_bug_scenarioB cg (2, 1) SNAKE_LEFT 0 (by decide) (by decide) (by decide)
    (by decide) (by decide) (by decide) (by decide) (by decide)

/-- Writing inside the buffer then reading the same byte yields the
written byte. -/
theorem byteAt_set_self (bs : List Nat) (i x : Nat) (h : i < bs.length) :
    byteAt (bs.set i x) i = x := by
  induction bs generalizing i with
  | nil => simp at h
  | cons b bs ih =>
    cases i with
    | zero => rfl
    | succ n => exact ih n (by simpa using h)

/-- Writing one byte leaves every other byte unchanged. -/
theorem byteAt_set_ne (bs : List Nat) (i j x : Nat) (h : j ≠ i) :
    byteAt (bs.set i x) j = byteAt bs j := by
  induction bs generalizing i j with
  | nil => rfl
  | cons b bs ih =>
    cases i with
    | zero =>
      cases j with
      | zero => exact absurd rfl h
      | succ m => rfl
    | succ n =>
      cases j with
      | zero => rfl
      | succ m => exact ih n m (fun hh => h (by rw [hh]))

/-- `setLoop` keeps the buffer length. -/
theorem setLoop_length (bitsLeft : Nat) : ∀ (bs : List Nat) (wb v : Nat),
    (setLoop bs wb bitsLeft v).length = bs.length := by
  induction bitsLeft using Nat.strong_induction_on with
  | _ n ih =>
    intro bs wb v
    unfold setLoop
    split_ifs with h1 h2
    · rw [ih (n - 8) (by omega)]
      exact List.length_set bs wb _
    · exact List.length_set bs wb _
    · rfl

/-- `setLoop` starting at byte `wb` never touches bytes below `wb`. -/
theorem byteAt_setLoop_lt (bitsLeft : Nat) : ∀ (bs : List Nat) (wb v j : Nat),
    j < wb → byteAt (setLoop bs wb bitsLeft v) j = byteAt bs j := by
  induction bitsLeft using Nat.strong_induction_on with
  | _ n ih =>
    intro bs wb v j hj
    unfold setLoop
    split_ifs with h1 h2
    · rw [ih (n - 8) (by omega) _ _ _ _ (by omega)]
      exact byteAt_set_ne bs wb j _ (by omega)
    · exact byteAt_set_ne bs wb j _ (by omega)
    · rfl

/-- Round trip of the byte-aligned tail of a value: after `setLoop`
writes `v` into `bitsLeft` bits starting at byte `wb`, `getLoop`
re-assembles exactly `v` (shifted into place on top of the bits already
accumulated). -/
theorem getLoop_setLoop (bitsLeft : Nat) :
    ∀ (bs : List Nat) (wb curPos value v : Nat),
    v < 2 ^ bitsLeft → wb + (bitsLeft + 7) / 8 ≤ bs.length →
    getLoop (setLoop bs wb bitsLeft v) wb bitsLeft curPos value =
      value + v * 2 ^ curPos := by
  induction bitsLeft using Nat.strong_induction_on with
  | _ n ih =>
    intro bs wb curPos value v hv hlen
    by_cases h8 : 8 ≤ n
    · have hwb : wb < bs.length := by omega
      unfold setLoop getLoop
      rw [if_pos h8, if_pos h8]
      have hbyte : byteAt (setLoop (bs.set wb (v % 256)) (wb + 1) (n - 8) (v / 256)) wb
          = v % 256 := by
        rw [byteAt_setLoop_lt (n - 8) _ _ _ _ (by omega)]
        exact byteAt_set_self bs wb _ hwb
      rw [hbyte]
      have hpow : 2 ^ (n - 8) * 256 = 2 ^ n := by
        rw [show (256 : Nat) = 2 ^ 8 from rfl, ← pow_add]
        congr 1
        omega
      have hv2 : v / 256 < 2 ^ (n - 8) := by
        rw [Nat.div_lt_iff_lt_mul (by norm_num : 0 < 256), hpow]
        exact hv
      have hlen2 : (wb + 1) + (n - 8 + 7) / 8 ≤ (bs.set wb (v % 256)).length := by
        rw [List.length_set]
        omega
      rw [ih (n - 8) (by omega) _ _ _ _ _ hv2 hlen2]
      have key : v % 256 + v / 256 * 256 = v := Nat.mod_add_div' v 256
      calc value + v % 256 * 2 ^ curPos + v / 256 * 2 ^ (curPos + 8)
          = value + (v % 256 + v / 256 * 256) * 2 ^ curPos := by
            rw [pow_add]
            ring
        _ = value + v * 2 ^ curPos := by rw [key]
    · by_cases h0 : 0 < n
      · have hwb : wb < bs.length := by omega
        unfold setLoop getLoop
        rw [if_neg h8, if_pos h0, if_neg h8, if_pos h0]
        rw [byteAt_set_self bs wb _ hwb]
        rw [Nat.mul_add_mod', Nat.mod_eq_of_lt hv]
      · have hn : n = 0 := by omega
        subst hn
        have hv0 : v = 0 := by
          rw [pow_zero] at hv
          omega
        subst hv0
        unfold setLoop getLoop
        simp

/-- Full round trip at the bit level: writing an in-range value of
`b` bits at byte `wb`, bit offset `bsp`, into a large-enough buffer and
reading the same location returns the value, whatever the previous
contents of the touched bytes. -/
theorem bpGet_bpSet (bs : List Nat) (b wb bsp v : Nat)
    (hb : 1 ≤ b) (hbsp : bsp < 8) (hv : v < 2 ^ b)
    (hlen : wb + (bsp + b + 7) / 8 ≤ bs.length) :
    bpGet (bpSet bs b wb bsp v) b wb bsp = v := by
  have hwb : wb < bs.length := by omega
  unfold bpGet bpSet
  dsimp only
  set k := min (8 - bsp) b with hk
  have hk1 : 1 ≤ k := le_min (by omega) hb
  have hk8 : k ≤ 8 - bsp := min_le_left _ _
  have hkb : k ≤ b := min_le_right _ _
  have hkcases : k = 8 - bsp ∨ k = b := min_choice _ _
  set b0 := byteAt bs wb with hb0
  have hfb : byteAt (setLoop
      (bs.set wb ((b0 / 2 ^ (bsp + k) * 2 ^ k + v % 2 ^ k) * 2 ^ bsp + b0 % 2 ^ bsp))
      (wb + 1) (b - k) (v / 2 ^ k)) wb
      = (b0 / 2 ^ (bsp + k) * 2 ^ k + v % 2 ^ k) * 2 ^ bsp + b0 % 2 ^ bsp := by
    rw [byteAt_setLoop_lt (b - k) _ _ _ _ (by omega)]
    exact byteAt_set_self bs wb _ hwb
  rw [hfb]
  have hdiv : ∀ (A r : Nat), r < 2 ^ bsp → (A * 2 ^ bsp + r) / 2 ^ bsp = A := by
    intro A r hr
    rw [mul_comm, Nat.mul_add_div (pow_pos two_pos bsp), Nat.div_eq_of_lt hr, add_zero]
  rw [hdiv _ _ (Nat.mod_lt _ (pow_pos two_pos bsp)), Nat.mul_add_mod',
    Nat.mod_mod_of_dvd v (dvd_refl (2 ^ k))]
  have hpow : 2 ^ (b - k) * 2 ^ k = 2 ^ b := by
    rw [← pow_add]
    congr 1
    omega
  have hv2 : v / 2 ^ k < 2 ^ (b - k) := by
    rw [Nat.div_lt_iff_lt_mul (pow_pos two_pos k), hpow]
    exact hv
  have hlen2 : (wb + 1) + (b - k + 7) / 8 ≤
      (bs.set wb ((b0 / 2 ^ (bsp + k) * 2 ^ k + v % 2 ^ k) * 2 ^ bsp + b0 % 2 ^ bsp)).length := by
    rw [List.length_set]
    rcases hkcases with h | h
    · rw [h] at hkb ⊢
      omega
    · rw [h]
      omega
  rw [getLoop_setLoop (b - k) _ _ _ _ _ hv2 hlen2]
  exact Nat.mod_add_div' v (2 ^ k)

/-- Mixed-radix bound: folding in-range coordinates keeps the
accumulator below the accumulated radix product. -/
theorem foldAux_lt (ds : List Nat) : ∀ (ps : List Nat) (acc A : Nat),
    coordOK ps ds = true → acc < A → foldAux ds ps acc < A * ds.prod := by
  induction ds with
  | nil =>
    intro ps acc A hok hacc
    cases ps with
    | nil => simpa using hacc
    | cons p ps => simp [coordOK] at hok
  | cons d ds ih =>
    intro ps acc A hok hacc
    cases ps with
    | nil => simp [coordOK] at hok
    | cons p ps =>
      simp only [coordOK, Bool.and_eq_true, decide_eq_true_eq] at hok
      obtain ⟨hpd, hok2⟩ := hok
      have hstep : acc * d + p < A * d := by
        calc acc * d + p < acc * d + d := by omega
          _ = (acc + 1) * d := by ring
          _ ≤ A * d := Nat.mul_le_mul_right d hacc
      have h2 := ih ps (acc * d + p) (A * d) hok2 hstep
      calc foldAux (d :: ds) (p :: ps) acc = foldAux ds ps (acc * d + p) := rfl
        _ < A * d * ds.prod := h2
        _ = A * (d :: ds).prod := by rw [List.prod_cons]; ring

/-- The linear index of an in-range coordinate is below the number of
records. -/
theorem foldCoord_lt (dims coord : List Nat) (h : coordOK coord dims = true) :
    foldCoord dims coord < dims.prod := by
  cases dims with
  | nil =>
    cases coord with
    | nil => simp [foldCoord]
    | cons p ps => simp [coordOK] at h
  | cons d ds =>
    cases coord with
    | nil => simp [coordOK] at h
    | cons p ps =>
      simp only [coordOK, Bool.and_eq_true, decide_eq_true_eq] at h
      obtain ⟨hpd, hok⟩ := h
      have := foldAux_lt ds ps p d hok hpd
      calc foldCoord (d :: ds) (p :: ps) = foldAux ds ps p := rfl
        _ < d * ds.prod := this
        _ = (d :: ds).prod := (List.prod_cons).symm

/-- Round trip on a `BitPackingArray`, in full generality: one width
hypothesis (`bits_per_index ≥ 1`), an in-range coordinate, an in-range
value and a buffer spanning all records. -/
theorem set_get_aux (a : BitPackingArray) (coord : List Nat) (v : Nat)
    (hb : 1 ≤ a.bits_per_index)
    (hcoord : coordOK coord a.dimensions = true)
    (hv : v < 2 ^ a.bits_per_index)
    (hlen : a.bits_per_index * a.dimensions.prod + a.start_bit_offset ≤
      8 * a.byte_array.length) :
    (a.set coord v).get coord = v := by
  have hfold : foldCoord a.dimensions coord < a.dimensions.prod :=
    foldCoord_lt _ _ hcoord
  have hmul : (foldCoord a.dimensions coord + 1) * a.bits_per_index ≤
      a.dimensions.prod * a.bits_per_index :=
    Nat.mul_le_mul_right _ (by omega)
  have hkey : foldCoord a.dimensions coord * a.bits_per_index +
      a.start_bit_offset + a.bits_per_index ≤ 8 * a.byte_array.length := by
    have h1 : foldCoord a.dimensions coord * a.bits_per_index + a.bits_per_index =
        (foldCoord a.dimensions coord + 1) * a.bits_per_index := by ring
    have h2 : a.dimensions.prod * a.bits_per_index =
        a.bits_per_index * a.dimensions.prod := by ring
    omega
  unfold BitPackingArray.get BitPackingArray.set BitPackingArray.bitPosition
  dsimp only
  generalize hQ : foldCoord a.dimensions coord * a.bits_per_index +
    a.start_bit_offset = Q at hkey ⊢
  exact bpGet_bpSet a.byte_array a.bits_per_index (Q / 8) (Q % 8) v hb
    (by omega) hv (by omega)

/-- Claim C1: for every `BitPackingArray` with `bits_per_index` in
[1, 32], any dimensionality, a view offset below 8 and a buffer
spanning all records, `set coord v` followed by `get coord` at any
in-range coordinate returns exactly `v` for every `v < 2 ^
bits_per_index`, byte-boundary straddling and nonzero
`start_bit_offset` included. -/
theorem set_get_roundtrip (a : BitPackingArray) (coord : List Nat) (v : Nat)
    (hb : 1 ≤ a.bits_per_index) (hb32 : a.bits_per_index ≤ 32)
    (hcoord : coordOK coord a.dimensions = true)
    (hsbo : a.start_bit_offset < 8)
    (hv : v < 2 ^ a.bits_per_index)
    (hlen : a.bits_per_index * a.dimensions.prod + a.start_bit_offset ≤
      8 * a.byte_array.length) :
    (a.set coord v).get coord = v :=
  set_get_aux a coord v hb hcoord hv hlen

/-- A concrete two-dimensional 5-bit array over a fresh 5-byte buffer
with a nonzero view offset. -/
def ex1 : BitPackingArray where
  dimensions := [2, 3]
  bits_per_index := 5
  byte_array := List.replicate 5 0
  start_bit_offset := 3

/-- Witness for claim C1: the stored bits of coordinate [1, 2] start at
bit 28 and straddle a byte boundary, and the round trip returns 19. -/
theorem set_get_roundtrip_witness : (ex1.set [1, 2] 19).get [1, 2] = 19 :=
  set_get_roundtrip ex1 [1, 2] 19 (by decide) (by decide) (by decide) (by decide)
    (by decide) (by decide)

/-- Every byte read from a buffer of genuine bytes is below 256 (an
out-of-range read yields the default 0). -/
theorem byteAt_lt (bs : List Nat) (i : Nat) (h : ∀ x ∈ bs, x < 256) :
    byteAt bs i < 256 := by
  unfold byteAt List.getD
  cases hg : bs.get? i with
  | none => simp
  | some y =>
    simp only [Option.getD_some]
    exact h y (List.get?_mem hg)

/-- The accumulation loop keeps the assembled value below
`2 ^ (curPos + bitsLeft)` whenever the already-assembled part is below
`2 ^ curPos` and the buffer holds genuine bytes. -/
theorem getLoop_lt (bitsLeft : Nat) : ∀ (bs : List Nat) (wb curPos value : Nat),
    (∀ x ∈ bs, x < 256) → value < 2 ^ curPos →
    getLoop bs wb bitsLeft curPos value < 2 ^ (curPos + bitsLeft) := by
  induction bitsLeft using Nat.strong_induction_on with
  | _ n ih =>
    intro bs wb curPos value hbytes hval
    unfold getLoop
    split_ifs with h1 h2
    · have hb : byteAt bs wb ≤ 255 := by
        have := byteAt_lt bs wb hbytes
        omega
      have hstep : value + byteAt bs wb * 2 ^ curPos < 2 ^ (curPos + 8) := by
        have h255 : byteAt bs wb * 2 ^ curPos ≤ 255 * 2 ^ curPos :=
          Nat.mul_le_mul_right _ hb
        have hpow : 2 ^ (curPos + 8) = 256 * 2 ^ curPos := by
          rw [pow_add]
          ring
        omega
      have := ih (n - 8) (by omega) bs (wb + 1) (curPos + 8) _ hbytes hstep
      have hexp : curPos + 8 + (n - 8) = curPos + n := by omega
      rw [hexp] at this
      exact this
    · have hmod := Nat.mod_lt (byteAt bs wb) (pow_pos two_pos n)
      have hstep : byteAt bs wb % 2 ^ n * 2 ^ curPos + 2 ^ curPos ≤
          2 ^ n * 2 ^ curPos := by
        calc byteAt bs wb % 2 ^ n * 2 ^ curPos + 2 ^ curPos
            = (byteAt bs wb % 2 ^ n + 1) * 2 ^ curPos := by ring
          _ ≤ 2 ^ n * 2 ^ curPos := Nat.mul_le_mul_right _ (by omega)
      have hpow : 2 ^ (curPos + n) = 2 ^ n * 2 ^ curPos := by
        rw [pow_add]
        ring
      omega
    · have hn : n = 0 := by omega
      subst hn
      simpa using hval

/-- The value assembled by a read of `b` bits is always below `2 ^ b`
when the buffer holds genuine bytes: the terminal assertion of
`BitPackingArray.get` never fails. -/
theorem bpGet_lt (bs : List Nat) (b wb bsp : Nat)
    (hbytes : ∀ x ∈ bs, x < 256) : bpGet bs b wb bsp < 2 ^ b := by
  unfold bpGet
  dsimp only
  have hcur : min (8 - bsp) b ≤ b := min_le_right _ _
  have hfst : byteAt bs wb / 2 ^ bsp % 2 ^ min (8 - bsp) b < 2 ^ min (8 - bsp) b :=
    Nat.mod_lt _ (pow_pos two_pos _)
  have := getLoop_lt (b - min (8 - bsp) b) bs (wb + 1) (min (8 - bsp) b) _ hbytes hfst
  have hexp : min (8 - bsp) b + (b - min (8 - bsp) b) = b := by omega
  rw [hexp] at this
  exact this

/-- Byte indices visited by the read loop stay below
`wb + ceil(bitsLeft / 8)` (stated multiplied by 8). -/
theorem getLoopTouched_lt (bitsLeft : Nat) : ∀ (wb i : Nat),
    i ∈ getLoopTouched wb bitsLeft → 8 * i < 8 * wb + bitsLeft := by
  induction bitsLeft using Nat.strong_induction_on with
  | _ n ih =>
    intro wb i hi
    unfold getLoopTouched at hi
    split_ifs at hi with h1 h2
    · rcases List.mem_cons.1 hi with h | h
      · omega
      · have := ih (n - 8) (by omega) (wb + 1) i h
        omega
    · have : i = wb := List.mem_singleton.1 hi
      omega
    · simp at hi

/-- Claim C10: with `bits_per_index ≥ 1`, a view offset in [0, 7] and a
buffer of at least `ceil((bits_per_index * prod(dimensions) +
start_bit_offset) / 8)` genuine bytes, a `get` at any in-range
coordinate dereferences only in-bounds byte indices and assembles a
value below `2 ^ bits_per_index`, so its terminal assertion never
fails. -/
theorem get_safe (a : BitPackingArray) (coord : List Nat)
    (hb : 1 ≤ a.bits_per_index)
    (hsbo : a.start_bit_offset ≤ 7)
    (hcoord : coordOK coord a.dimensions = true)
    (hbytes : ∀ x ∈ a.byte_array, x < 256)
    (hlen : (a.bits_per_index * a.dimensions.prod + a.start_bit_offset + 7) / 8 ≤
      a.byte_array.length) :
    (∀ i ∈ a.getTouchedBytes coord, i < a.byte_array.length) ∧
    a.get coord < 2 ^ a.bits_per_index := by
  constructor
  · intro i hi
    have hfold : foldCoord a.dimensions coord < a.dimensions.prod :=
      foldCoord_lt _ _ hcoord
    have hmul : (foldCoord a.dimensions coord + 1) * a.bits_per_index ≤
        a.dimensions.prod * a.bits_per_index :=
      Nat.mul_le_mul_right _ (by omega)
    have hkey : foldCoord a.dimensions coord * a.bits_per_index +
        a.start_bit_offset + a.bits_per_index ≤
        a.bits_per_index * a.dimensions.prod + a.start_bit_offset := by
      have h1 : foldCoord a.dimensions coord * a.bits_per_index + a.bits_per_index =
          (foldCoord a.dimensions coord + 1) * a.bits_per_index := by ring
      have h2 : a.dimensions.prod * a.bits_per_index =
          a.bits_per_index * a.dimensions.prod := by ring
      omega
    unfold BitPackingArray.getTouchedBytes BitPackingArray.bitPosition at hi
    dsimp only at hi
    generalize hQ : foldCoord a.dimensions coord * a.bits_per_index +
      a.start_bit_offset = Q at hi hkey
    generalize hX : a.bits_per_index * a.dimensions.prod +
      a.start_bit_offset = X at hkey hlen
    rcases List.mem_cons.1 hi with h | h
    · subst h
      omega
    · have hbound := getLoopTouched_lt _ _ _ h
      rcases min_choice (8 - Q % 8) a.bits_per_index with hm | hm <;>
        rw [hm] at hbound <;> omega
  · unfold BitPackingArray.get
    exact bpGet_lt _ _ _ _ hbytes

/-- Witness for claim C10 at `ex1` and coordinate [0, 1]: the buffer
has exactly the required 5 bytes. -/
theorem get_safe_witness :
    (∀ i ∈ ex1.getTouchedBytes [0, 1], i < ex1.byte_array.length) ∧
    ex1.get [0, 1] < 2 ^ ex1.bits_per_index :=
  get_safe ex1 [0, 1] (by decide) (by decide) (by decide) (by decide) (by decide)

/-- A concrete 1-D 2-bit array of three elements over one zero byte. -/
def exA : BitPackingArray where
  dimensions := [3]
  bits_per_index := 2
  byte_array := [0]
  start_bit_offset := 0

/-- Counterexample to claim C7 as frozen: on `exA`, `setitem 5 7` has
the value 7 outside `[0, 2^2)`, yet the raised error is the index
error, not the value-range error, because the index check runs first. -/
theorem setitem_claim_counterexample :
    ¬((7 : Int) < 2 ^ exA.bits_per_index) ∧
    (exA.setitem 5 7).2 = some BPErr.indexError ∧
    (exA.setitem 5 7).2 ≠ some BPErr.valueError := by decide

/-- Claim C7 (amended): on a 1-D array, `__setitem__(idx, v)` raises
the index error exactly when the negative-index-normalized `idx` falls
outside `[0, dimensions[0])`; it raises the value-range error exactly
when the normalized index is in range but `v` lies outside
`[0, 2^bits_per_index)` (the index check runs first, so an
out-of-range index masks a bad value); on any error the array is
unchanged, since every check precedes the write; and when both are in
range the call succeeds and the value read back at `idx` is `v`. -/
theorem setitem_characterization (a : BitPackingArray) (idx v : Int) (n : Nat)
    (hdims : a.dimensions = [n]) (hb : 1 ≤ a.bits_per_index)
    (hlen : a.bits_per_index * n + a.start_bit_offset ≤ 8 * a.byte_array.length) :
    ((a.setitem idx v).2 = some BPErr.indexError ↔
      ¬(0 ≤ (if 0 ≤ idx then idx else (n : Int) + idx) ∧
        (if 0 ≤ idx then idx else (n : Int) + idx) < (n : Int))) ∧
    ((a.setitem idx v).2 = some BPErr.valueError ↔
      ((0 ≤ (if 0 ≤ idx then idx else (n : Int) + idx) ∧
        (if 0 ≤ idx then idx else (n : Int) + idx) < (n : Int)) ∧
       ¬(0 ≤ v ∧ v < 2 ^ a.bits_per_index))) ∧
    ((a.setitem idx v).2 ≠ none → (a.setitem idx v).1 = a) ∧
    ((0 ≤ (if 0 ≤ idx then idx else (n : Int) + idx) ∧
      (if 0 ≤ idx then idx else (n : Int) + idx) < (n : Int)) →
     (0 ≤ v ∧ v < 2 ^ a.bits_per_index) →
     (a.setitem idx v).2 = none ∧
     ((a.setitem idx v).1).get
       [(if 0 ≤ idx then idx else (n : Int) + idx).toNat] = v.toNat) := by
  have hcast : ((2 ^ a.bits_per_index : Nat) : Int) = 2 ^ a.bits_per_index := by
    push_cast
    ring
  unfold BitPackingArray.setitem
  rw [hdims]
  simp only [List.length_cons, List.length_nil, List.headD_cons]
  rw [if_neg (by norm_num : ¬(0 + 1 > 1))]
  by_cases hidx : 0 ≤ (if 0 ≤ idx then idx else (n : Int) + idx) ∧
      (if 0 ≤ idx then idx else (n : Int) + idx) < (n : Int)
  · rw [if_neg (not_not_intro hidx)]
    by_cases hval : 0 ≤ v ∧ v < 2 ^ a.bits_per_index
    · rw [if_neg (not_not_intro hval)]
      refine ⟨iff_of_false (by simp) (not_not_intro hidx),
        iff_of_false (by simp) (fun h => h.2 hval),
        fun h => absurd rfl h, fun _ _ => ⟨rfl, ?_⟩⟩
      have hv3 : v < ((2 ^ a.bits_per_index : Nat) : Int) := by
        rw [hcast]
        exact hval.2
      apply set_get_aux
      · exact hb
      · rw [hdims]
        simp only [coordOK, Bool.and_eq_true, decide_eq_true_eq]
        refine ⟨?_, trivial⟩
        rcases hidx with ⟨h1, h2⟩
        split_ifs at h1 h2 ⊢ <;> omega
      · rcases hval with ⟨h1, _⟩
        omega
      · rw [hdims]
        simpa using hlen
    · rw [if_pos hval]
      exact ⟨iff_of_false (by simp) (not_not_intro hidx),
        iff_of_true rfl ⟨hidx, hval⟩, fun _ => rfl, fun _ hv2 => absurd hv2 hval⟩
  · rw [if_pos hidx]
    exact ⟨iff_of_true rfl hidx, iff_of_false (by simp) (fun h => hidx h.1),
      fun _ => rfl, fun hi2 _ => absurd hi2 hidx⟩

/-- Witness for the amended claim C7: the in-range write `setitem 1 3`
on `exA` succeeds and reads back 3. -/
theorem setitem_characterization_witness :
    (exA.setitem 1 3).2 = none ∧
    ((exA.setitem 1 3).1).get
      [(if (0 : Int) ≤ 1 then (1 : Int) else ((3 : Nat) : Int) + 1).toNat] =
      (3 : Int).toNat :=
  (setitem_characterization exA 1 3 3 rfl (by decide) (by decide)).2.2.2
    (by decide) (by decide)

/-- Reading any byte of an all-zero buffer yields 0. -/
theorem byteAt_zero (bs : List Nat) (i : Nat) (h : ∀ x ∈ bs, x = 0) :
    byteAt bs i = 0 := by
  unfold byteAt List.getD
  cases hg : bs.get? i with
  | none => simp
  | some y =>
    simp only [Option.getD_some]
    exact h y (List.get?_mem hg)

/-- The accumulation loop over an all-zero buffer adds nothing. -/
theorem getLoop_zero (bitsLeft : Nat) : ∀ (bs : List Nat) (wb curPos value : Nat),
    (∀ x ∈ bs, x = 0) → getLoop bs wb bitsLeft curPos value = value := by
  induction bitsLeft using Nat.strong_induction_on with
  | _ n ih =>
    intro bs wb curPos value h
    unfold getLoop
    split_ifs with h1 h2
    · rw [byteAt_zero bs wb h]
      simpa using ih (n - 8) (by omega) bs (wb + 1) (curPos + 8) value h
    · rw [byteAt_zero bs wb h]
      simp
    · rfl

/-- A read from an all-zero buffer returns 0. -/
theorem get_zero (a : BitPackingArray) (coord : List Nat)
    (h : ∀ x ∈ a.byte_array, x = 0) : a.get coord = 0 := by
  unfold BitPackingArray.get bpGet
  dsimp only
  rw [byteAt_zero _ _ h, getLoop_zero _ _ _ _ _ h]
  simp

/-- Extracting a bit field out of a packed record: the field written in
the middle of a record is recovered exactly, whatever the contents of
the fields below (`S`) and above (`E`) it. -/
theorem field_extract (E nv S s t : Nat) (hS : S < 2 ^ s) (hnv : nv < 2 ^ t) :
    (E * 2 ^ (s + t) + nv * 2 ^ s + S) / 2 ^ s % 2 ^ t = nv := by
  have h1 : E * 2 ^ (s + t) + nv * 2 ^ s + S = (E * 2 ^ t + nv) * 2 ^ s + S := by
    rw [pow_add]
    ring
  rw [h1]
  have h2 : ((E * 2 ^ t + nv) * 2 ^ s + S) / 2 ^ s = E * 2 ^ t + nv := by
    rw [mul_comm (E * 2 ^ t + nv) (2 ^ s), Nat.mul_add_div (pow_pos two_pos s),
      Nat.div_eq_of_lt hS, add_zero]
  rw [h2, Nat.mul_add_mod', Nat.mod_eq_of_lt hnv]

/-- Claim C6: over a non-game `GridHelper` whose own bit-field reads 0
at every cell — the other fields of each packed record being arbitrary,
a fresh zero-initialized buffer being one instance — reading any
in-range position `p`, given linearly or as a 2-D coordinate resolving
to `row * width + col`, returns `p` itself; and writing `v` with
`v + 1 < 2 ^ bits_to_read` at a position `p` then reading `p` returns
`v` (this round trip holds over any record contents): writes add 1
before packing and reads subtract 1, with a stored 0 meaning the
position's own linear index. -/
theorem gridhelper_zero_self_roundtrip (gh : GridHelper) (arr : BitPackingArray)
    (hgame : gh.is_game_grid = false)
    (hdims : arr.dimensions = [gh.width * gh.height])
    (hbpi : arr.bits_per_index = gh.bits_per_index)
    (hsbo : arr.start_bit_offset = 0)
    (hzero : ∀ p : Nat, p < gh.width * gh.height →
      arr.get [p] / 2 ^ gh.start_bit % 2 ^ gh.bits_to_read = 0)
    (hfield : gh.start_bit + gh.bits_to_read ≤ gh.bits_per_index)
    (hlen : gh.bits_per_index * (gh.width * gh.height) ≤ 8 * arr.byte_array.length)
    (pos : Nat) (hpos : pos < gh.width * gh.height)
    (v : Nat) (hv : v + 1 < 2 ^ gh.bits_to_read) :
    (∀ p : Nat, p < gh.width * gh.height → gh.getitem arr p = p) ∧
    (∀ r c : Nat, r * gh.width + c < gh.width * gh.height →
      gh.getitem2 arr (r, c) = r * gh.width + c) ∧
    ∃ arr2, gh.setitem arr pos v = some arr2 ∧ gh.getitem arr2 pos = v := by
  have hread : ∀ p : Nat, p < gh.width * gh.height → gh.getitem arr p = p := by
    intro p hp
    unfold GridHelper.getitem
    rw [hzero p hp]
    simp [hgame]
  have hbtr1 : 1 ≤ gh.bits_to_read := by
    by_contra hcon
    have : gh.bits_to_read = 0 := by omega
    rw [this] at hv
    simp at hv
  refine ⟨hread, ?_, ?_⟩
  · intro r c hrc
    unfold GridHelper.getitem2
    dsimp only
    exact hread _ hrc
  · have hguard : v + 1 ≤ 2 ^ gh.bits_to_read - 1 := by omega
    unfold GridHelper.setitem
    simp only [hgame, if_false, Bool.false_eq_true]
    rw [if_pos hguard]
    refine ⟨_, rfl, ?_⟩
    have hE : arr.get [pos] / 2 ^ (gh.start_bit + gh.bits_to_read) %
        2 ^ (gh.bits_per_index - gh.start_bit - gh.bits_to_read) <
        2 ^ (gh.bits_per_index - gh.start_bit - gh.bits_to_read) :=
      Nat.mod_lt _ (pow_pos two_pos _)
    have hS : arr.get [pos] % 2 ^ gh.start_bit < 2 ^ gh.start_bit :=
      Nat.mod_lt _ (pow_pos two_pos _)
    have hlt : arr.get [pos] / 2 ^ (gh.start_bit + gh.bits_to_read) %
          2 ^ (gh.bits_per_index - gh.start_bit - gh.bits_to_read) *
          2 ^ (gh.start_bit + gh.bits_to_read) +
        (v + 1) * 2 ^ gh.start_bit + arr.get [pos] % 2 ^ gh.start_bit <
        2 ^ arr.bits_per_index := by
      have e1 : (v + 1 + 1) * 2 ^ gh.start_bit =
          (v + 1) * 2 ^ gh.start_bit + 2 ^ gh.start_bit := by ring
      have step1 : (v + 1) * 2 ^ gh.start_bit + 2 ^ gh.start_bit ≤
          2 ^ gh.bits_to_read * 2 ^ gh.start_bit := by
        rw [← e1]
        exact Nat.mul_le_mul_right _ (by omega)
      have e2 : (arr.get [pos] / 2 ^ (gh.start_bit + gh.bits_to_read) %
            2 ^ (gh.bits_per_index - gh.start_bit - gh.bits_to_read) + 1) *
            2 ^ (gh.start_bit + gh.bits_to_read) =
          arr.get [pos] / 2 ^ (gh.start_bit + gh.bits_to_read) %
            2 ^ (gh.bits_per_index - gh.start_bit - gh.bits_to_read) *
            2 ^ (gh.start_bit + gh.bits_to_read) +
            2 ^ (gh.start_bit + gh.bits_to_read) := by ring
      have step2 : arr.get [pos] / 2 ^ (gh.start_bit + gh.bits_to_read) %
            2 ^ (gh.bits_per_index - gh.start_bit - gh.bits_to_read) *
            2 ^ (gh.start_bit + gh.bits_to_read) +
            2 ^ (gh.start_bit + gh.bits_to_read) ≤
          2 ^ (gh.bits_per_index - gh.start_bit - gh.bits_to_read) *
            2 ^ (gh.start_bit + gh.bits_to_read) := by
        rw [← e2]
        exact Nat.mul_le_mul_right _ (by omega)
      have hpow1 : 2 ^ gh.bits_to_read * 2 ^ gh.start_bit =
          2 ^ (gh.start_bit + gh.bits_to_read) := by
        rw [pow_add]
        ring
      have hpow2 : 2 ^ (gh.bits_per_index - gh.start_bit - gh.bits_to_read) *
          2 ^ (gh.start_bit + gh.bits_to_read) = 2 ^ arr.bits_per_index := by
        rw [← pow_add, hbpi]
        congr 1
        omega
      omega
    have hget2 : (arr.set [pos]
        (arr.get [pos] / 2 ^ (gh.start_bit + gh.bits_to_read) %
            2 ^ (gh.bits_per_index - gh.start_bit - gh.bits_to_read) *
            2 ^ (gh.start_bit + gh.bits_to_read) +
          (v + 1) * 2 ^ gh.start_bit + arr.get [pos] % 2 ^ gh.start_bit)).get [pos] =
        arr.get [pos] / 2 ^ (gh.start_bit + gh.bits_to_read) %
            2 ^ (gh.bits_per_index - gh.start_bit - gh.bits_to_read) *
            2 ^ (gh.start_bit + gh.bits_to_read) +
          (v + 1) * 2 ^ gh.start_bit + arr.get [pos] % 2 ^ gh.start_bit := by
      apply set_get_aux
      · rw [hbpi]
        omega
      · rw [hdims]
        simp only [coordOK, Bool.and_eq_true, decide_eq_true_eq]
        exact ⟨hpos, trivial⟩
      · exact hlt
      · rw [hdims, hsbo, hbpi]
        simpa using hlen
    unfold GridHelper.getitem
    rw [hget2, field_extract _ _ _ _ _ hS (by omega : v + 1 < 2 ^ gh.bits_to_read)]
    simp [hgame]

/-- A concrete non-game grid view: 2x2 board, 7-bit records, reading 3
bits starting at bit 2. -/
def ghEx : GridHelper where
  width := 2
  height := 2
  bits_per_index := 7
  start_bit := 2
  bits_to_read := 3
  is_game_grid := false

/-- A fresh zeroed 1-D backing array for `ghEx`: 4 records of 7 bits in
4 bytes. -/
def exG : BitPackingArray where
  dimensions := [4]
  bits_per_index := 7
  byte_array := List.replicate 4 0
  start_bit_offset := 0

/-- Witness for claim C6 on the concrete grid `exG`, an instance whose
own bit-field reads zero at every cell, writing value 5 at position
2. -/
theorem gridhelper_zero_self_roundtrip_witness :
    (∀ p : Nat, p < ghEx.width * ghEx.height → ghEx.getitem exG p = p) ∧
    (∀ r c : Nat, r * ghEx.width + c < ghEx.width * ghEx.height →
      ghEx.getitem2 exG (r, c) = r * ghEx.width + c) ∧
    ∃ arr2, ghEx.setitem exG 2 5 = some arr2 ∧ ghEx.getitem arr2 2 = 5 :=
  gridhelper_zero_self_roundtrip ghEx exG rfl (by decide) rfl rfl
    (fun p _ => by rw [get_zero exG [p] (by decide)]; simp)
    (by decide) (by decide) 2 (by decide) 5 (by decide)
